import Mathlib

/-!
Verification of the LCS engine of `maxsubseq` (src/main.rs).

The program offers three variants computing the length of the longest
common subsequence of two character sequences:

* `lcs_for`     — the greedy for-loop variant (`fn lcs_for`),
* `lcs_rec`     — the plain recursive variant (`fn lcs_rec`),
* `lcs_dynamic` — the dynamic-programming variant (`fn lcs_dynamic`).

Each Rust function is embedded shallowly below.  Strings are `List Char`
(Rust iterates `chars()`); the Rust `i32` results are `ℤ`; every
`chars().nth(...).unwrap()` is modelled by an optional lookup, so a
variant returns `Option ℤ` and `none` models an unwrap failure.  The
mutable locals of `lcs_for` (`lcs`, `already_counted_chars`,
`max_char_pos`) become an explicit state record threaded through the
two nested loops, and the DP table `dp` of `lcs_dynamic` becomes a
total map `Nat → Nat → ℤ` initialised to `0` (the Rust
`vec![vec![0; n + 1]; m + 1]`) and updated pointwise.
-/

namespace MaxSubseq

open List

/-- The mutable locals of Rust `fn lcs_for`: the running count `lcs`,
the vector `already_counted_chars`, and the cursor `max_char_pos`. -/
structure ForState where
  lcs : ℤ
  already_counted_chars : List Char
  max_char_pos : Nat
  deriving DecidableEq

/-- One iteration of the inner loop of `lcs_for` (loop body for index `j`
over the second string `y`), for the current outer character `x_char`.
`none` models the panic of `y.chars().nth(j).unwrap()` when `j` is out of
bounds (never reached for `j` drawn from `0..y.len()`). -/
def innerStep (x_char : Char) (y : List Char) (j : Nat) (s : ForState) :
    Option ForState :=
  match y[j]? with
  | none => none
  | some y_char =>
    if s.already_counted_chars.contains y_char then
      some s
    else if x_char = y_char ∧ s.max_char_pos < j then
      some ⟨s.lcs + 1, s.already_counted_chars.concat x_char, j⟩
    else
      some s

/-- The inner `for j in 0..y.len()` loop of `lcs_for`, run over an explicit
list of indices `js`. -/
def innerLoop (x_char : Char) (y : List Char) :
    List Nat → ForState → Option ForState
  | [], s => some s
  | j :: js, s => (innerStep x_char y j s).bind (innerLoop x_char y js)

/-- One iteration of the outer loop of `lcs_for` (loop body for index `i`
over the first string `x`).  `none` models the panic of
`x.chars().nth(i).unwrap()` when `i` is out of bounds. -/
def outerStep (x y : List Char) (i : Nat) (s : ForState) : Option ForState :=
  match x[i]? with
  | none => none
  | some x_char =>
    if s.already_counted_chars.contains x_char then
      some s
    else
      innerLoop x_char y (List.range y.length) s

/-- The outer `for i in 0..x.len()` loop of `lcs_for`, run over an explicit
list of indices. -/
def outerLoop (x y : List Char) : List Nat → ForState → Option ForState
  | [], s => some s
  | i :: is, s => (outerStep x y i s).bind (outerLoop x y is)

/-- Rust `fn lcs_for(x, y) -> i32`: run the two nested loops from the
initial state `lcs = 0`, `already_counted_chars = vec![]`,
`max_char_pos = 0`, and return the final `lcs`. -/
def lcs_for (x y : List Char) : Option ℤ :=
  (outerLoop x y (List.range x.length) ⟨0, [], 0⟩).map ForState.lcs

/-- Rust `fn lcs_rec(x, y, i, j) -> i32`.  The `i == -1 || j == -1` guard
returns `0`; otherwise the Rust code casts `i` and `j` to `usize` and
unwraps `chars().nth(..)`, so a negative index below `-1` (whose `usize`
cast is astronomically large) or an index past the end gives `none`
(a panic).  Equal characters recurse diagonally adding one; otherwise the
result is the `max` of the two one-step-shorter calls. -/
def lcs_rec (x y : List Char) (i j : ℤ) : Option ℤ :=
  if i = -1 ∨ j = -1 then
    some 0
  else if i < 0 ∨ j < 0 then
    none
  else
    match x[i.toNat]?, y[j.toNat]? with
    | some xc, some yc =>
      if xc = yc then
        (lcs_rec x y (i - 1) (j - 1)).map (fun v => 1 + v)
      else
        match lcs_rec x y (i - 1) j, lcs_rec x y i (j - 1) with
        | some a, some b => some (max a b)
        | _, _ => none
    | _, _ => none
termination_by ((i + 1).toNat + (j + 1).toNat)
decreasing_by all_goals omega

/-- The assignment `dp[i][j] = v` on the DP table, modelled as a
pointwise functional update. -/
def dpUpdate (dp : Nat → Nat → ℤ) (i j : Nat) (v : ℤ) : Nat → Nat → ℤ :=
  fun a b => if a = i ∧ b = j then v else dp a b

/-- The inner `for j in 1..=y.len()` loop of `lcs_dynamic` for row `i`,
run over an explicit list of column indices `js`.  Each step reads
`x.chars().nth(i - 1).unwrap()` and `y.chars().nth(j - 1).unwrap()`
(`none` on failure) and writes table cell `(i, j)` following the
recurrence of the Rust loop body. -/
def dynInner (x y : List Char) (i : Nat) :
    List Nat → (Nat → Nat → ℤ) → Option (Nat → Nat → ℤ)
  | [], dp => some dp
  | j :: js, dp =>
    match x[i - 1]?, y[j - 1]? with
    | some xc, some yc =>
      dynInner x y i js (dpUpdate dp i j
        (if xc = yc then 1 + dp (i - 1) (j - 1)
         else max (dp (i - 1) j) (dp i (j - 1))))
    | _, _ => none

/-- The outer `for i in 1..=x.len()` loop of `lcs_dynamic`, run over an
explicit list of row indices. -/
def dynOuter (x y : List Char) :
    List Nat → (Nat → Nat → ℤ) → Option (Nat → Nat → ℤ)
  | [], dp => some dp
  | i :: is, dp => (dynInner x y i (List.range' 1 y.length) dp).bind (dynOuter x y is)

/-- Rust `fn lcs_dynamic(x, y) -> i32`: fill the `(m+1) × (n+1)` table
(initially all zero) for `i` in `1..=m`, `j` in `1..=n`, and return
`dp[m][n]`. -/
def lcs_dynamic (x y : List Char) : Option ℤ :=
  (dynOuter x y (List.range' 1 x.length) (fun _ _ => 0)).map
    (fun dp => dp x.length y.length)

/-- The mathematical LCS length of two character lists, by the textbook
recurrence peeling from the front.  Proved below to be the greatest
length of a common sublist, and to agree with the three variants where
the spec says so. -/
def lcsSpecLen : List Char → List Char → Nat
  | [], _ => 0
  | _ :: _, [] => 0
  | a :: as, b :: bs =>
    if a = b then
      1 + lcsSpecLen as bs
    else
      max (lcsSpecLen (a :: as) bs) (lcsSpecLen as (b :: bs))
termination_by x y => x.length + y.length
decreasing_by all_goals (simp only [List.length_cons]; omega)

/-- The intended content of DP table cell `(i, j)`: the LCS length of the
first `i` characters of `x` and the first `j` characters of `y` (the
table recurrence consumes the prefixes from their right ends, hence the
reversal). -/
def dpVal (x y : List Char) (i j : Nat) : ℤ :=
  (lcsSpecLen ((x.take i).reverse) ((y.take j).reverse) : ℤ)

theorem lcsSpecLen_nil_left (y : List Char) : lcsSpecLen [] y = 0 := by
  simp [lcsSpecLen]

theorem lcsSpecLen_nil_right (x : List Char) : lcsSpecLen x [] = 0 := by
  cases x <;> simp [lcsSpecLen]

theorem lcsSpecLen_cons_cons (a b : Char) (as bs : List Char) :
    lcsSpecLen (a :: as) (b :: bs) =
      if a = b then 1 + lcsSpecLen as bs
      else max (lcsSpecLen (a :: as) bs) (lcsSpecLen as (b :: bs)) := by
  simp [lcsSpecLen]

theorem tail_sublist_of_cons_sublist_cons {c a : Char} {t l : List Char}
    (h : c :: t <+ a :: l) : t <+ l := by
  cases h with
  | cons _ h => exact (List.sublist_cons_self c t).trans h
  | cons₂ _ h => exact h

theorem cons_sublist_cons_cases {c a : Char} {t l : List Char}
    (h : c :: t <+ a :: l) : c :: t <+ l ∨ (c = a ∧ t <+ l) := by
  cases h with
  | cons _ h => exact Or.inl h
  | cons₂ _ h => exact Or.inr ⟨rfl, h⟩

/-- A common sublist of length `lcsSpecLen x y` exists. -/
theorem exists_common_sublist (x y : List Char) :
    ∃ z, z <+ x ∧ z <+ y ∧ z.length = lcsSpecLen x y := by
  generalize hn : x.length + y.length = n
  induction n using Nat.strong_induction_on generalizing x y with
  | _ n ih =>
    cases x with
    | nil =>
      exact ⟨[], List.nil_sublist _, List.nil_sublist _,
        by rw [lcsSpecLen_nil_left]; rfl⟩
    | cons a as =>
      cases y with
      | nil =>
        exact ⟨[], List.nil_sublist _, List.nil_sublist _,
          by rw [lcsSpecLen_nil_right]; rfl⟩
      | cons b bs =>
        rw [lcsSpecLen_cons_cons]
        by_cases hab : a = b
        · subst hab
          obtain ⟨z, hzx, hzy, hzl⟩ :=
            ih (as.length + bs.length)
              (by subst hn; simp only [List.length_cons]; omega) as bs rfl
          refine ⟨a :: z, List.cons_sublist_cons.mpr hzx,
            List.cons_sublist_cons.mpr hzy, ?_⟩
          rw [if_pos rfl, List.length_cons, hzl]
          omega
        · rcases le_total (lcsSpecLen (a :: as) bs) (lcsSpecLen as (b :: bs))
            with hle | hle
          · obtain ⟨z, hzx, hzy, hzl⟩ :=
              ih (as.length + (b :: bs).length)
                (by subst hn; simp only [List.length_cons]; omega)
                as (b :: bs) rfl
            refine ⟨z, hzx.trans (List.sublist_cons_self a as), hzy, ?_⟩
            rw [if_neg hab, max_eq_right hle, hzl]
          · obtain ⟨z, hzx, hzy, hzl⟩ :=
              ih ((a :: as).length + bs.length)
                (by subst hn; simp only [List.length_cons]; omega)
                (a :: as) bs rfl
            refine ⟨z, hzx, hzy.trans (List.sublist_cons_self b bs), ?_⟩
            rw [if_neg hab, max_eq_left hle, hzl]

/-- Every common sublist is at most `lcsSpecLen x y` long. -/
theorem common_sublist_length_le (x y z : List Char)
    (hzx : z <+ x) (hzy : z <+ y) : z.length ≤ lcsSpecLen x y := by
  generalize hn : x.length + y.length = n
  induction n using Nat.strong_induction_on generalizing x y z with
  | _ n ih =>
    cases x with
    | nil =>
      rw [List.sublist_nil.mp hzx]
      exact Nat.zero_le _
    | cons a as =>
      cases y with
      | nil =>
        rw [List.sublist_nil.mp hzy]
        exact Nat.zero_le _
      | cons b bs =>
        rw [lcsSpecLen_cons_cons]
        by_cases hab : a = b
        · subst hab
          cases z with
          | nil => exact Nat.zero_le _
          | cons c t =>
            have htx : t <+ as := tail_sublist_of_cons_sublist_cons hzx
            have hty : t <+ bs := tail_sublist_of_cons_sublist_cons hzy
            have hle := ih (as.length + bs.length)
              (by subst hn; simp only [List.length_cons]; omega) as bs t htx hty rfl
            rw [if_pos rfl, List.length_cons]
            omega
        · cases z with
          | nil =>
            rw [if_neg hab]
            exact Nat.zero_le _
          | cons c t =>
            rw [if_neg hab]
            rcases cons_sublist_cons_cases hzx with h1 | ⟨hca, h1⟩
            · exact le_trans
                (ih (as.length + (b :: bs).length)
                  (by subst hn; simp only [List.length_cons]; omega)
                  as (b :: bs) (c :: t) h1 hzy rfl)
                (le_max_right _ _)
            · rcases cons_sublist_cons_cases hzy with h2 | ⟨hcb, h2⟩
              · exact le_trans
                  (ih ((a :: as).length + bs.length)
                    (by subst hn; simp only [List.length_cons]; omega)
                    (a :: as) bs (c :: t) hzx h2 rfl)
                  (le_max_left _ _)
              · exact absurd (hca.symm.trans hcb) hab

/-- `lcsSpecLen` is invariant under reversing both lists: common sublists
of the reversals are exactly the reversed common sublists. -/
theorem lcsSpecLen_reverse (x y : List Char) :
    lcsSpecLen x.reverse y.reverse = lcsSpecLen x y := by
  apply Nat.le_antisymm
  · obtain ⟨z, hzx, hzy, hzl⟩ := exists_common_sublist x.reverse y.reverse
    have hx : z.reverse <+ x := List.sublist_reverse_iff.mp hzx
    have hy : z.reverse <+ y := List.sublist_reverse_iff.mp hzy
    have := common_sublist_length_le x y z.reverse hx hy
    rwa [List.length_reverse, hzl] at this
  · obtain ⟨z, hzx, hzy, hzl⟩ := exists_common_sublist x y
    have hx : z.reverse <+ x.reverse := List.reverse_sublist.mpr hzx
    have hy : z.reverse <+ y.reverse := List.reverse_sublist.mpr hzy
    have := common_sublist_length_le x.reverse y.reverse z.reverse hx hy
    rwa [List.length_reverse, hzl] at this

/-- `lcsSpecLen` is symmetric in its two arguments. -/
theorem lcsSpecLen_comm (x y : List Char) :
    lcsSpecLen x y = lcsSpecLen y x := by
  apply Nat.le_antisymm
  · obtain ⟨z, hzx, hzy, hzl⟩ := exists_common_sublist x y
    have := common_sublist_length_le y x z hzy hzx
    rwa [hzl] at this
  · obtain ⟨z, hzx, hzy, hzl⟩ := exists_common_sublist y x
    have := common_sublist_length_le x y z hzy hzx
    rwa [hzl] at this

/-- Unfolding of `innerStep` when the lookup succeeds. -/
theorem innerStep_eq (x_char : Char) (y : List Char) (j : Nat) (s : ForState)
    (y_char : Char) (hy : y[j]? = some y_char) :
    innerStep x_char y j s =
      if s.already_counted_chars.contains y_char then some s
      else if x_char = y_char ∧ s.max_char_pos < j then
        some ⟨s.lcs + 1, s.already_counted_chars.concat x_char, j⟩
      else some s := by
  unfold innerStep
  rw [hy]

/-- Unfolding of `outerStep` when the lookup succeeds. -/
theorem outerStep_eq (x y : List Char) (i : Nat) (s : ForState)
    (x_char : Char) (hx : x[i]? = some x_char) :
    outerStep x y i s =
      if s.already_counted_chars.contains x_char then some s
      else innerLoop x_char y (List.range y.length) s := by
  unfold outerStep
  rw [hx]

/-- Case analysis of one inner-loop iteration of `lcs_for`: either the
state is unchanged, or the guard `x_char == y_char && j > max_char_pos`
fired and the state was updated exactly as in the Rust loop body. -/
theorem innerStep_spec (x_char : Char) (y : List Char) (j : Nat) (s t : ForState)
    (h : innerStep x_char y j s = some t) :
    t = s ∨
      (x_char ∉ s.already_counted_chars ∧ s.max_char_pos < j ∧ j < y.length ∧
        t.lcs = s.lcs + 1 ∧
        t.already_counted_chars = s.already_counted_chars.concat x_char ∧
        t.max_char_pos = j) := by
  unfold innerStep at h
  split at h
  · exact absurd h (by simp)
  · rename_i y_char hy
    have hj : j < y.length := by
      by_contra hj
      rw [List.getElem?_eq_none (Nat.le_of_not_lt hj)] at hy
      exact absurd hy (by simp)
    split at h
    · exact Or.inl (Option.some_injective _ h).symm
    · rename_i hc
      split at h
      · rename_i hg
        refine Or.inr ⟨?_, hg.2, hj, ?_, ?_, ?_⟩
        · rw [hg.1]
          simpa using hc
        · rw [← (Option.some_injective _ h)]
        · rw [← (Option.some_injective _ h)]
        · rw [← (Option.some_injective _ h)]
      · exact Or.inl (Option.some_injective _ h).symm

/-- When the current outer character is already marked, one inner-loop
iteration leaves the state untouched: the update guard needs
`x_char == y_char` with `y_char` unmarked. -/
theorem innerStep_of_mem (x_char : Char) (y : List Char) (j : Nat) (s t : ForState)
    (hmem : x_char ∈ s.already_counted_chars)
    (h : innerStep x_char y j s = some t) : t = s := by
  rcases innerStep_spec x_char y j s t h with h1 | h1
  · exact h1
  · exact absurd hmem h1.1

/-- When the current outer character is already marked, the whole inner
loop leaves the state untouched. -/
theorem innerLoop_of_mem (x_char : Char) (y : List Char) :
    ∀ (js : List Nat) (s t : ForState),
      x_char ∈ s.already_counted_chars →
      innerLoop x_char y js s = some t → t = s := by
  intro js
  induction js with
  | nil =>
    intro s t _ h
    exact (Option.some_injective _ h).symm
  | cons j js ih =>
    intro s t hmem h
    rw [innerLoop] at h
    rcases Option.bind_eq_some.mp h with ⟨u, hu, hrest⟩
    rw [innerStep_of_mem x_char y j s u hmem hu] at hrest
    exact ih s t hmem hrest

/-- Case analysis of a whole inner-loop run of `lcs_for`: either the state
is unchanged, or the count rose by exactly one, the cursor strictly
advanced to a valid index of `y`, and `x_char` became marked.  In
particular the inner loop can never count the same outer character
twice, although it does not break after a match: once `x_char` is
appended to `already_counted_chars`, every later matching `y_char` (being
equal to `x_char`) is skipped by the marker test. -/
theorem innerLoop_spec (x_char : Char) (y : List Char) :
    ∀ (js : List Nat) (s t : ForState),
      innerLoop x_char y js s = some t →
      t = s ∨
        (x_char ∉ s.already_counted_chars ∧
          t.lcs = s.lcs + 1 ∧
          s.max_char_pos < t.max_char_pos ∧ t.max_char_pos < y.length ∧
          x_char ∈ t.already_counted_chars ∧
          ∀ c, c ∈ s.already_counted_chars → c ∈ t.already_counted_chars) := by
  intro js
  induction js with
  | nil =>
    intro s t h
    exact Or.inl (Option.some_injective _ h).symm
  | cons j js ih =>
    intro s t h
    rw [innerLoop] at h
    rcases Option.bind_eq_some.mp h with ⟨u, hu, hrest⟩
    rcases innerStep_spec x_char y j s u hu with h1 | ⟨hnm, hlt, hj, hlcs, hacc, hmax⟩
    · rw [h1] at hrest
      exact ih s t hrest
    · have hmem : x_char ∈ u.already_counted_chars := by
        rw [hacc]
        simp
      rw [innerLoop_of_mem x_char y js u t hmem hrest]
      refine Or.inr ⟨hnm, hlcs, ?_, ?_, hmem, ?_⟩
      · rw [hmax]; exact hlt
      · rw [hmax]; exact hj
      · intro c hc
        rw [hacc]
        simp [hc]

/-- One inner-loop iteration always succeeds when the index is in
bounds: the `chars().nth(j).unwrap()` cannot fail. -/
theorem innerStep_total (x_char : Char) (y : List Char) (j : Nat) (s : ForState)
    (hj : j < y.length) : ∃ t, innerStep x_char y j s = some t := by
  rw [innerStep_eq x_char y j s y[j] (List.getElem?_eq_getElem hj)]
  by_cases hc : s.already_counted_chars.contains y[j]
  · exact ⟨s, by rw [if_pos hc]⟩
  · by_cases hg : x_char = y[j] ∧ s.max_char_pos < j
    · exact ⟨_, by rw [if_neg hc, if_pos hg]⟩
    · exact ⟨s, by rw [if_neg hc, if_neg hg]⟩

/-- The inner loop always succeeds when every index is in bounds. -/
theorem innerLoop_total (x_char : Char) (y : List Char) :
    ∀ (js : List Nat) (s : ForState), (∀ j ∈ js, j < y.length) →
      ∃ t, innerLoop x_char y js s = some t := by
  intro js
  induction js with
  | nil => exact fun s _ => ⟨s, rfl⟩
  | cons j js ih =>
    intro s hbound
    obtain ⟨u, hu⟩ := innerStep_total x_char y j s (hbound j (by simp))
    obtain ⟨t, ht⟩ := ih u (fun k hk => hbound k (by simp [hk]))
    exact ⟨t, by rw [innerLoop, hu, Option.some_bind, ht]⟩

/-- Invariant carried through the loops of `lcs_for`: the count is
non-negative and bounded by the cursor, and the cursor is `0` or a valid
index of `y`. -/
def ForInv (y : List Char) (s : ForState) : Prop :=
  0 ≤ s.lcs ∧ s.lcs ≤ (s.max_char_pos : ℤ) ∧
    (s.max_char_pos = 0 ∨ s.max_char_pos < y.length)

theorem innerLoop_inv (x_char : Char) (y : List Char) (js : List Nat)
    (s t : ForState) (h : innerLoop x_char y js s = some t)
    (hs : ForInv y s) : ForInv y t := by
  rcases innerLoop_spec x_char y js s t h with h1 | ⟨_, hlcs, hadv, hlt, _, _⟩
  · rwa [h1]
  · obtain ⟨h0, hb, _⟩ := hs
    refine ⟨by omega, ?_, Or.inr hlt⟩
    rw [hlcs]
    have : (s.max_char_pos : ℤ) < (t.max_char_pos : ℤ) := by exact_mod_cast hadv
    omega

/-- One outer-loop iteration of `lcs_for` always succeeds when `i` is in
bounds, and preserves the invariant. -/
theorem outerStep_total_inv (x y : List Char) (i : Nat) (s : ForState)
    (hi : i < x.length) (hs : ForInv y s) :
    ∃ t, outerStep x y i s = some t ∧ ForInv y t := by
  rw [outerStep_eq x y i s x[i] (List.getElem?_eq_getElem hi)]
  by_cases hc : s.already_counted_chars.contains x[i]
  · exact ⟨s, by rw [if_pos hc], hs⟩
  · obtain ⟨t, ht⟩ := innerLoop_total x[i] y (List.range y.length) s
      (fun j hj => List.mem_range.mp hj)
    exact ⟨t, by rw [if_neg hc]; exact ht,
      innerLoop_inv x[i] y (List.range y.length) s t ht hs⟩

/-- The outer loop of `lcs_for` always succeeds when every index is in
bounds, and preserves the invariant. -/
theorem outerLoop_total_inv (x y : List Char) :
    ∀ (is : List Nat) (s : ForState), (∀ i ∈ is, i < x.length) →
      ForInv y s →
      ∃ t, outerLoop x y is s = some t ∧ ForInv y t := by
  intro is
  induction is with
  | nil => exact fun s _ hs => ⟨s, rfl, hs⟩
  | cons i is ih =>
    intro s hbound hs
    obtain ⟨u, hu, hinvu⟩ := outerStep_total_inv x y i s (hbound i (by simp)) hs
    obtain ⟨t, ht, hinvt⟩ := ih u (fun k hk => hbound k (by simp [hk])) hinvu
    exact ⟨t, by rw [outerLoop, hu, Option.some_bind, ht], hinvt⟩

/-- `lcs_for` always returns a value, and that value is non-negative and
at most `max 0 (length y - 1)`. -/
theorem lcs_for_total_bound (x y : List Char) :
    ∃ v, lcs_for x y = some v ∧ 0 ≤ v ∧ v ≤ max 0 ((y.length : ℤ) - 1) := by
  obtain ⟨t, ht, h0, hb, hcur⟩ :=
    outerLoop_total_inv x y (List.range x.length) ⟨0, [], 0⟩
      (fun i hi => List.mem_range.mp hi) ⟨le_refl 0, by simp, Or.inl rfl⟩
  refine ⟨t.lcs, ?_, h0, ?_⟩
  · rw [lcs_for, ht]
    rfl
  · rcases hcur with hz | hlt
    · rw [hz] at hb
      simp only [Nat.cast_zero] at hb
      exact le_trans hb (le_max_left _ _)
    · have hlt2 : (t.max_char_pos : ℤ) < (y.length : ℤ) := by exact_mod_cast hlt
      have hle : t.lcs ≤ (y.length : ℤ) - 1 := by omega
      exact le_trans hle (le_max_right _ _)

theorem dpUpdate_same (dp : Nat → Nat → ℤ) (i j : Nat) (v : ℤ) :
    dpUpdate dp i j v i j = v := by
  simp [dpUpdate]

theorem dpUpdate_ne (dp : Nat → Nat → ℤ) (i j : Nat) (v : ℤ) (a b : Nat)
    (h : a ≠ i ∨ b ≠ j) : dpUpdate dp i j v a b = dp a b := by
  unfold dpUpdate
  rw [if_neg]
  rintro ⟨rfl, rfl⟩
  rcases h with h | h <;> exact h rfl

theorem dpVal_zero_left (x y : List Char) (j : Nat) : dpVal x y 0 j = 0 := by
  simp [dpVal, lcsSpecLen_nil_left]

theorem dpVal_zero_right (x y : List Char) (i : Nat) : dpVal x y i 0 = 0 := by
  simp [dpVal, lcsSpecLen_nil_right]

/-- The prefix LCS lengths satisfy the recurrence of the Rust DP loop
body (stated at row `i + 1` and column `j + 1`, which read characters
`x[i]` and `y[j]`). -/
theorem dpVal_succ_succ (x y : List Char) (i j : Nat)
    (hi : i < x.length) (hj : j < y.length) :
    dpVal x y (i + 1) (j + 1) =
      if x.get ⟨i, hi⟩ = y.get ⟨j, hj⟩ then 1 + dpVal x y i j
      else max (dpVal x y i (j + 1)) (dpVal x y (i + 1) j) := by
  unfold dpVal
  rw [List.take_succ, List.take_succ (l := y),
    List.getElem?_eq_getElem hi, List.getElem?_eq_getElem hj]
  simp only [Option.toList_some, List.reverse_append, List.reverse_cons,
    List.reverse_nil, List.nil_append, List.singleton_append]
  rw [lcsSpecLen_cons_cons]
  rw [List.get_eq_getElem, List.get_eq_getElem]
  split
  · push_cast
    ring
  · push_cast
    exact max_comm _ _

/-- Correctness and totality of the inner column loop of `lcs_dynamic`
for one row `i' + 1`: started after column `J` with the table correct on
all earlier rows, on column `0`, and on the first `J` cells of the
current row, it succeeds and completes the current row. -/
theorem dynInner_correct (x y : List Char) (i2 : Nat)
    (hi2 : i2 < x.length) :
    ∀ (k J : Nat) (dp : Nat → Nat → ℤ),
      J + k = y.length →
      (∀ a, dp a 0 = 0) →
      (∀ a b, a < i2 + 1 → b ≤ y.length → dp a b = dpVal x y a b) →
      (∀ b, b ≤ J → dp (i2 + 1) b = dpVal x y (i2 + 1) b) →
      ∃ dp2, dynInner x y (i2 + 1) (List.range' (J + 1) k) dp = some dp2 ∧
        (∀ a, dp2 a 0 = 0) ∧
        (∀ a b, a < i2 + 1 → b ≤ y.length → dp2 a b = dpVal x y a b) ∧
        (∀ b, b ≤ y.length → dp2 (i2 + 1) b = dpVal x y (i2 + 1) b) := by
  intro k
  induction k with
  | zero =>
    intro J dp hJ h0 hlt hrow
    have hJn : J = y.length := by omega
    exact ⟨dp, rfl, h0, hlt, fun b hb => hrow b (by omega)⟩
  | succ k ih =>
    intro J dp hJ h0 hlt hrow
    have hJlt : J < y.length := by omega
    rw [List.range'_succ]
    rw [dynInner]
    have hx : x[(i2 + 1) - 1]? = some (x.get ⟨i2, hi2⟩) := by
      simp only [Nat.add_sub_cancel]
      rw [List.getElem?_eq_getElem hi2, List.get_eq_getElem]
    have hy : y[(J + 1) - 1]? = some (y.get ⟨J, hJlt⟩) := by
      simp only [Nat.add_sub_cancel]
      rw [List.getElem?_eq_getElem hJlt, List.get_eq_getElem]
    rw [hx, hy]
    set v : ℤ :=
      if x.get ⟨i2, hi2⟩ = y.get ⟨J, hJlt⟩ then
        1 + dp ((i2 + 1) - 1) ((J + 1) - 1)
      else max (dp ((i2 + 1) - 1) (J + 1)) (dp (i2 + 1) ((J + 1) - 1)) with hv
    have hcell : dpUpdate dp (i2 + 1) (J + 1) v (i2 + 1) (J + 1) =
        dpVal x y (i2 + 1) (J + 1) := by
      rw [dpUpdate_same, hv]
      simp only [Nat.add_sub_cancel]
      rw [dpVal_succ_succ x y i2 J hi2 hJlt]
      rw [hlt i2 J (by omega) (by omega), hlt i2 (J + 1) (by omega) (by omega),
        hrow J (le_refl J)]
    have h02 : ∀ a, dpUpdate dp (i2 + 1) (J + 1) v a 0 = 0 := by
      intro a
      rw [dpUpdate_ne dp _ _ v a 0 (Or.inr (by omega))]
      exact h0 a
    have hlt2 : ∀ a b, a < i2 + 1 → b ≤ y.length →
        dpUpdate dp (i2 + 1) (J + 1) v a b = dpVal x y a b := by
      intro a b ha hb
      rw [dpUpdate_ne dp _ _ v a b (Or.inl (by omega))]
      exact hlt a b ha hb
    have hrow2 : ∀ b, b ≤ J + 1 →
        dpUpdate dp (i2 + 1) (J + 1) v (i2 + 1) b = dpVal x y (i2 + 1) b := by
      intro b hb
      by_cases hbJ : b = J + 1
      · rw [hbJ]
        exact hcell
      · rw [dpUpdate_ne dp _ _ v _ b (Or.inr hbJ)]
        exact hrow b (by omega)
    exact ih (J + 1) (dpUpdate dp (i2 + 1) (J + 1) v) (by omega) h02 hlt2 hrow2

/-- Correctness and totality of the outer row loop of `lcs_dynamic`:
started after row `I` with the table correct on rows `0..I` and zero on
column `0`, it succeeds and leaves every cell of the table correct. -/
theorem dynOuter_correct (x y : List Char) :
    ∀ (k I : Nat) (dp : Nat → Nat → ℤ),
      I + k = x.length →
      (∀ a, dp a 0 = 0) →
      (∀ a b, a ≤ I → b ≤ y.length → dp a b = dpVal x y a b) →
      ∃ dp2, dynOuter x y (List.range' (I + 1) k) dp = some dp2 ∧
        (∀ a b, a ≤ x.length → b ≤ y.length → dp2 a b = dpVal x y a b) := by
  intro k
  induction k with
  | zero =>
    intro I dp hI h0 hok
    exact ⟨dp, rfl, fun a b ha hb => hok a b (by omega) hb⟩
  | succ k ih =>
    intro I dp hI h0 hok
    have hIlt : I < x.length := by omega
    rw [List.range'_succ, dynOuter]
    have hrange : List.range' 1 y.length = List.range' (0 + 1) y.length := by
      norm_num
    obtain ⟨dpr, hrun, h0r, hltr, hrowr⟩ :=
      dynInner_correct x y I hIlt y.length 0 dp (by omega) h0
        (fun a b ha hb => hok a b (by omega) hb)
        (fun b hb => by
          have : b = 0 := by omega
          rw [this, h0 (I + 1), dpVal_zero_right])
    rw [hrange, hrun, Option.some_bind]
    exact ih (I + 1) dpr (by omega) h0r
      (fun a b ha hb => by
        by_cases haI : a = I + 1
        · rw [haI]
          exact hrowr b hb
        · exact hltr a b (by omega) hb)

/-- The DynamicProgramming variant returns exactly the mathematical LCS
length of its two inputs. -/
theorem lcs_dynamic_eq_spec (x y : List Char) :
    lcs_dynamic x y = some ((lcsSpecLen x y : ℤ)) := by
  obtain ⟨dp2, hrun, hok⟩ :=
    dynOuter_correct x y x.length 0 (fun _ _ => 0) (by omega)
      (fun a => rfl)
      (fun a b ha hb => by
        have : a = 0 := by omega
        rw [this, dpVal_zero_left])
  rw [lcs_dynamic]
  have hrange : List.range' 1 x.length = List.range' (0 + 1) x.length := by
    norm_num
  rw [hrange, hrun, Option.map_some']
  rw [hok x.length y.length (le_refl _) (le_refl _)]
  rw [dpVal, List.take_length, List.take_length, lcsSpecLen_reverse]

/-- Unfolding of `lcs_rec` in the recursive case, when both lookups
succeed. -/
theorem lcs_rec_eq_of_get (x y : List Char) (i j : ℤ)
    (hbase : ¬(i = -1 ∨ j = -1)) (hneg : ¬(i < 0 ∨ j < 0)) (xc yc : Char)
    (hx : x[i.toNat]? = some xc) (hy : y[j.toNat]? = some yc) :
    lcs_rec x y i j =
      if xc = yc then
        (lcs_rec x y (i - 1) (j - 1)).map (fun v => 1 + v)
      else
        match lcs_rec x y (i - 1) j, lcs_rec x y i (j - 1) with
        | some a, some b => some (max a b)
        | _, _ => none := by
  rw [lcs_rec, if_neg hbase, if_neg hneg, hx, hy]

/-- Totality and correctness of the Recursive variant on the index
rectangle actually reached from the entry call: for `-1 ≤ i < length x`
and `-1 ≤ j < length y`, `lcs_rec` succeeds and returns the LCS length
of the prefixes `x[0..=i]` and `y[0..=j]`.  The outer `k` bounds the
recursion depth for the induction. -/
theorem lcs_rec_eq_aux (x y : List Char) :
    ∀ (k : Nat) (i j : ℤ), (i + 1).toNat + (j + 1).toNat ≤ k →
      -1 ≤ i → i < (x.length : ℤ) → -1 ≤ j → j < (y.length : ℤ) →
      lcs_rec x y i j = some (dpVal x y (i + 1).toNat (j + 1).toNat) := by
  intro k
  induction k with
  | zero =>
    intro i j hk hi1 hi2 hj1 hj2
    have hi : i = -1 := by omega
    rw [lcs_rec, if_pos (Or.inl hi)]
    rw [hi]
    norm_num [dpVal_zero_left]
  | succ k ih =>
    intro i j hk hi1 hi2 hj1 hj2
    by_cases hbase : i = -1 ∨ j = -1
    · rw [lcs_rec, if_pos hbase]
      rcases hbase with h | h
      · rw [h]
        norm_num [dpVal_zero_left]
      · rw [h]
        norm_num [dpVal_zero_right]
    · have hi0 : 0 ≤ i := by omega
      have hj0 : 0 ≤ j := by omega
      have hneg : ¬(i < 0 ∨ j < 0) := by omega
      have hidx : i.toNat < x.length := by omega
      have hjdx : j.toNat < y.length := by omega
      have hsi : (i + 1).toNat = i.toNat + 1 := by omega
      have hsj : (j + 1).toNat = j.toNat + 1 := by omega
      rw [lcs_rec_eq_of_get x y i j hbase hneg _ _
        (List.getElem?_eq_getElem hidx) (List.getElem?_eq_getElem hjdx)]
      rw [hsi, hsj, dpVal_succ_succ x y i.toNat j.toNat hidx hjdx]
      simp only [List.get_eq_getElem]
      have hmi : (i - 1 + 1).toNat = i.toNat := by omega
      have hmj : (j - 1 + 1).toNat = j.toNat := by omega
      by_cases hxy : x[i.toNat] = y[j.toNat]
      · have hrec := ih (i - 1) (j - 1) (by omega) (by omega) (by omega)
          (by omega) (by omega)
        rw [hmi, hmj] at hrec
        rw [if_pos hxy, if_pos hxy, hrec, Option.map_some']
      · have hrec1 := ih (i - 1) j (by omega) (by omega) (by omega)
          (by omega) (by omega)
        have hrec2 := ih i (j - 1) (by omega) (by omega) (by omega)
          (by omega) (by omega)
        rw [hmi, hsj] at hrec1
        rw [hsi, hmj] at hrec2
        rw [if_neg hxy, if_neg hxy, hrec1, hrec2]

/-- The Recursive variant, called as `main` calls it (with
`i = m - 1`, `j = n - 1`), returns exactly the mathematical LCS length. -/
theorem lcs_rec_entry (x y : List Char) :
    lcs_rec x y ((x.length : ℤ) - 1) ((y.length : ℤ) - 1) =
      some ((lcsSpecLen x y : ℤ)) := by
  have h := lcs_rec_eq_aux x y (x.length + y.length)
    ((x.length : ℤ) - 1) ((y.length : ℤ) - 1)
    (by omega) (by omega) (by omega) (by omega) (by omega)
  have hm : ((x.length : ℤ) - 1 + 1).toNat = x.length := by omega
  have hn : ((y.length : ℤ) - 1 + 1).toNat = y.length := by omega
  rw [hm, hn] at h
  rw [h, dpVal, List.take_length, List.take_length, lcsSpecLen_reverse]

/-- Claim C1: for every pair of finite sequences, the DynamicProgramming
variant (`lcs_dynamic`, which fills the `(m+1) x (n+1)` table with the
textbook recurrence) returns the greatest length of a common — not
necessarily contiguous, order-preserving — subsequence of the two
inputs. -/
theorem claim_C1_lcs_dynamic_correct (x y : List Char) :
    ∃ z : List Char, z <+ x ∧ z <+ y ∧
      lcs_dynamic x y = some ((z.length : ℤ)) ∧
      ∀ w : List Char, w <+ x → w <+ y → w.length ≤ z.length := by
  obtain ⟨z, hzx, hzy, hzl⟩ := exists_common_sublist x y
  refine ⟨z, hzx, hzy, ?_, ?_⟩
  · rw [lcs_dynamic_eq_spec, hzl]
  · intro w hwx hwy
    rw [hzl]
    exact common_sublist_length_le x y w hwx hwy

/-- Witness for claim C1 at a concrete input. -/
theorem claim_C1_witness :
    ∃ z : List Char, z <+ ['A', 'B'] ∧ z <+ ['B', 'A'] ∧
      lcs_dynamic ['A', 'B'] ['B', 'A'] = some ((z.length : ℤ)) ∧
      ∀ w : List Char, w <+ ['A', 'B'] → w <+ ['B', 'A'] →
        w.length ≤ z.length :=
  claim_C1_lcs_dynamic_correct ['A', 'B'] ['B', 'A']

/-- Claim C2: the Recursive variant, called as `main` calls it with
`i = m - 1` and `j = n - 1`, returns the same value as the
DynamicProgramming variant on every pair of finite sequences. -/
theorem claim_C2_rec_eq_dynamic (x y : List Char) :
    lcs_rec x y ((x.length : ℤ) - 1) ((y.length : ℤ) - 1) =
      lcs_dynamic x y := by
  rw [lcs_rec_entry, lcs_dynamic_eq_spec]

/-- Claim C3: all three variants are total — on every pair of finite
input sequences each returns a value (every character-indexing unwrap
succeeds), and the value is a non-negative integer. -/
theorem claim_C3_totality (x y : List Char) :
    (∃ a, lcs_for x y = some a ∧ 0 ≤ a) ∧
    (∃ b, lcs_rec x y ((x.length : ℤ) - 1) ((y.length : ℤ) - 1) =
        some b ∧ 0 ≤ b) ∧
    (∃ c, lcs_dynamic x y = some c ∧ 0 ≤ c) := by
  refine ⟨?_, ?_, ?_⟩
  · obtain ⟨v, hv, h0, _⟩ := lcs_for_total_bound x y
    exact ⟨v, hv, h0⟩
  · exact ⟨_, lcs_rec_entry x y, Int.natCast_nonneg _⟩
  · exact ⟨_, lcs_dynamic_eq_spec x y, Int.natCast_nonneg _⟩

/-- Claim C4, counterexample: on `A = "ABC"`, `B = "ABC"` the GreedyScan
variant returns 2, not the claimed 3 — the guard `j > max_char_pos` with
`max_char_pos` initialised to 0 rejects the match of `'A'` at index 0 of
`B`. -/
theorem claim_C4_counterexample :
    lcs_for ['A', 'B', 'C'] ['A', 'B', 'C'] = some 2 ∧ (2 : ℤ) ≠ 3 :=
  ⟨by decide, by decide⟩

/-- Claim C4, amended: on `A = "ABC"`, `B = "ABC"` the DynamicProgramming
and Recursive variants yield 3, but the GreedyScan variant yields 2: no
symbol repeats, yet the cursor initialisation to 0 blocks any match at
index 0 of `B`, so `'A'` is never counted. -/
theorem claim_C4_amended :
    lcs_for ['A', 'B', 'C'] ['A', 'B', 'C'] = some 2 ∧
    lcs_dynamic ['A', 'B', 'C'] ['A', 'B', 'C'] = some 3 ∧
    lcs_rec ['A', 'B', 'C'] ['A', 'B', 'C'] 2 2 = some 3 := by
  refine ⟨by decide, by decide, ?_⟩
  have h := lcs_rec_entry ['A', 'B', 'C'] ['A', 'B', 'C']
  have hv : lcs_dynamic ['A', 'B', 'C'] ['A', 'B', 'C'] = some 3 := by decide
  rw [lcs_dynamic_eq_spec] at hv
  have hcast := Option.some_injective _ hv
  rw [hcast] at h
  norm_num at h
  exact h

/-- Claim C5, counterexample to the claimed double counting: for no pair
of inputs (indeed, from no starting state whatsoever) does the inner
scan of GreedyScan over all of `B` increase the count by two or more for
a single outer symbol. -/
theorem claim_C5_counterexample :
    ¬ ∃ (x_char : Char) (y : List Char) (s t : ForState),
        innerLoop x_char y (List.range y.length) s = some t ∧
          s.lcs + 2 ≤ t.lcs := by
  rintro ⟨xc, y, s, t, hrun, hcount⟩
  rcases innerLoop_spec xc y (List.range y.length) s t hrun with h | ⟨_, hlcs, _⟩
  · rw [h] at hcount
    omega
  · omega

/-- Claim C5, amended: the inner scan over `B` does not break after the
first qualifying match, but it can never re-trigger the update for the
same outer symbol: the symbol is added to `already_counted_chars` by the
first update, and every later matching position in `B` holds that same
symbol and is therefore skipped by the marker test.  Hence one outer
iteration increments the count by at most one. -/
theorem claim_C5_amended (x_char : Char) (y : List Char) (js : List Nat)
    (s t : ForState) (h : innerLoop x_char y js s = some t) :
    t.lcs ≤ s.lcs + 1 := by
  rcases innerLoop_spec x_char y js s t h with h1 | ⟨_, hlcs, _⟩
  · rw [h1]
    omega
  · omega

/-- Witness for the amended claim C5 at a concrete input. -/
theorem claim_C5_witness :
    (⟨1, ['A'], 1⟩ : ForState).lcs ≤ (⟨0, [], 0⟩ : ForState).lcs + 1 :=
  claim_C5_amended 'A' ['A', 'A'] (List.range 2) ⟨0, [], 0⟩ ⟨1, ['A'], 1⟩
    (by decide)

/-- Claim C6: on `A = "AA"`, `B = "AA"` the GreedyScan variant returns 1
while DynamicProgramming returns 2; the first outer `'A'` is matched
(at index 1 of `B`, producing state `⟨1, ['A'], 1⟩`), and the second
outer `'A'` is skipped entirely because `'A'` is already marked, leaving
the state unchanged. -/
theorem claim_C6_AA :
    lcs_for ['A', 'A'] ['A', 'A'] = some 1 ∧
    lcs_dynamic ['A', 'A'] ['A', 'A'] = some 2 ∧
    outerStep ['A', 'A'] ['A', 'A'] 0 ⟨0, [], 0⟩ = some ⟨1, ['A'], 1⟩ ∧
    outerStep ['A', 'A'] ['A', 'A'] 1 ⟨1, ['A'], 1⟩ = some ⟨1, ['A'], 1⟩ :=
  ⟨by decide, by decide, by decide, by decide⟩

/-- Claim C7: whenever one of the two inputs is empty, all three variants
return 0. -/
theorem claim_C7_empty (x y : List Char) (h : x = [] ∨ y = []) :
    lcs_for x y = some 0 ∧
    lcs_rec x y ((x.length : ℤ) - 1) ((y.length : ℤ) - 1) = some 0 ∧
    lcs_dynamic x y = some 0 := by
  have hspec : lcsSpecLen x y = 0 := by
    rcases h with h | h
    · rw [h, lcsSpecLen_nil_left]
    · rw [h, lcsSpecLen_nil_right]
  refine ⟨?_, ?_, ?_⟩
  · rcases h with h | h
    · rw [h]
      rfl
    · obtain ⟨v, hv, h0, hb⟩ := lcs_for_total_bound x y
      subst h
      norm_num at hb
      have hv0 : v = 0 := le_antisymm hb h0
      rw [hv, hv0]
  · rw [lcs_rec_entry, hspec]
    rfl
  · rw [lcs_dynamic_eq_spec, hspec]
    rfl

/-- Witness for claim C7 at a concrete input. -/
theorem claim_C7_witness :
    lcs_for [] ['a'] = some 0 ∧
    lcs_rec [] ['a'] ((([] : List Char).length : ℤ) - 1)
      (((['a'] : List Char).length : ℤ) - 1) = some 0 ∧
    lcs_dynamic [] ['a'] = some 0 :=
  claim_C7_empty [] ['a'] (Or.inl rfl)

/-- Claim C8: the DynamicProgramming variant is symmetric in its two
arguments. -/
theorem claim_C8_symmetry (x y : List Char) :
    lcs_dynamic x y = lcs_dynamic y x := by
  rw [lcs_dynamic_eq_spec, lcs_dynamic_eq_spec, lcsSpecLen_comm]

/-- Claim C9: on `A = "ABCBDAB"`, `B = "BDCABA"` both the
DynamicProgramming variant and the Recursive variant (called with
`i = 6`, `j = 5`) return 4. -/
theorem claim_C9_textbook_example :
    lcs_dynamic ['A', 'B', 'C', 'B', 'D', 'A', 'B']
        ['B', 'D', 'C', 'A', 'B', 'A'] = some 4 ∧
    lcs_rec ['A', 'B', 'C', 'B', 'D', 'A', 'B']
        ['B', 'D', 'C', 'A', 'B', 'A'] 6 5 = some 4 := by
  refine ⟨by decide, ?_⟩
  have h := lcs_rec_entry ['A', 'B', 'C', 'B', 'D', 'A', 'B']
    ['B', 'D', 'C', 'A', 'B', 'A']
  have hv : lcs_dynamic ['A', 'B', 'C', 'B', 'D', 'A', 'B']
      ['B', 'D', 'C', 'A', 'B', 'A'] = some 4 := by decide
  rw [lcs_dynamic_eq_spec] at hv
  have hcast := Option.some_injective _ hv
  rw [hcast] at h
  norm_num at h
  exact h

/-- Claim C10: the GreedyScan variant never counts a match at index 0 of
`B` (the cursor starts at 0 and a match needs `j > max_char_pos`, so an
iteration of the inner loop at `j = 0` always leaves the state
unchanged); consequently its result is at most `max 0 (length B - 1)`,
and in particular `lcs_for "A" "A" = 0` although the true LCS length
is 1. -/
theorem claim_C10_index_zero_blocked :
    (∀ x y : List Char, ∃ v, lcs_for x y = some v ∧
      v ≤ max 0 ((y.length : ℤ) - 1)) ∧
    (∀ (x_char : Char) (y : List Char) (s : ForState),
      Option.all (fun t => decide (t = s)) (innerStep x_char y 0 s) = true) ∧
    lcs_for ['A'] ['A'] = some 0 := by
  refine ⟨?_, ?_, by decide⟩
  · intro x y
    obtain ⟨v, hv, _, hb⟩ := lcs_for_total_bound x y
    exact ⟨v, hv, hb⟩
  · intro xc y s
    cases hy : y[0]? with
    | none =>
      unfold innerStep
      rw [hy]
      rfl
    | some y_char =>
      rw [innerStep_eq xc y 0 s y_char hy]
      by_cases hc : s.already_counted_chars.contains y_char
      · rw [if_pos hc]
        simp [Option.all]
      · rw [if_neg hc, if_neg (fun hcon => Nat.not_lt_zero _ hcon.2)]
        simp [Option.all]

end MaxSubseq
